import Mathlib

/-
  Verification development for the proof-of-useful-work worker.

  Shallow embedding conventions:
  * Rust `i8` values are modelled as `Int` (in-range values lie in [-128, 127];
    theorems that need the range state it as a hypothesis).
  * Byte strings (`[u8]`, `Vec<u8>`) are `List Nat` (each entry < 256).
  * Rust `i64` / C `long` arithmetic is modelled with `wrap64`, C `int`
    arithmetic with `wrap32` (two's-complement wrap-around, the behaviour of
    every real target for the release builds the repo ships).
  * External crates (blake3, sha2, k256, rand/StdRng shuffle, rand_xoshiro)
    are not part of this repository's sources; they are modelled as explicit
    function parameters, so every theorem quantifies over their behaviour.
  * Fallible or panicking code paths return `Option` (`none` = panic/error).
-/

namespace TopsWorker

/-- Two's-complement wrap-around of a signed 32-bit machine integer. -/
def wrap32 (x : Int) : Int := (x + 2147483648) % 4294967296 - 2147483648

/-- Two's-complement wrap-around of a signed 64-bit machine integer. -/
def wrap64 (x : Int) : Int :=
  (x + 9223372036854775808) % 18446744073709551616 - 9223372036854775808

/-- Little-endian byte encoding on `w` bytes (`u32::to_le_bytes`,
`usize::to_le_bytes`, ... with `w` the byte width of the type). -/
def leBytes (w : Nat) (x : Nat) : List Nat :=
  (List.range w).map (fun i => x / 256 ^ i % 256)

/-- Row-major `m × n` matrix built from an entry function.  Mirrors the Rust
idiom `let mut out = vec![0; m*n]; ... out[r*n+c] = f r c ...` where every
entry is written exactly once. -/
def mkMat (m n : Nat) (f : Nat → Nat → Int) : List Int :=
  List.ofFn (fun i : Fin (m * n) => f (i.val / n) (i.val % n))

/-- Sequence a list of optional element values: `some` of the list when
every entry is `some`, `none` as soon as any entry is `none` — a loop whose
element computation can panic. -/
def seqOption : List (Option Int) → Option (List Int)
  | [] => some []
  | o :: rest =>
      match o, seqOption rest with
      | some v, some vs => some (v :: vs)
      | _, _ => none

/-- Row-major `m × n` matrix whose entry computation can panic: the matrix
when every entry succeeds, `none` when any entry panics. -/
def mkMatO (m n : Nat) (f : Nat → Nat → Option Int) : Option (List Int) :=
  seqOption (List.ofFn (fun i : Fin (m * n) => f (i.val / n) (i.val % n)))

/-! ## src/cpu.rs — the scalar reference executor -/

namespace CpuExec

/-- The inner accumulation loop of `CpuExec::gemm_int8_relu_q`:
`for t in 0..k { acc += (a[row*k+t] as i32 as i64) * (b[t*n+col] as i32 as i64) }`.
The accumulator is Rust `i64`, hence the `wrap64` after every operation.
Out-of-range indexing panics in Rust; `getD … 0` is only ever evaluated
in bounds under the length hypotheses of the theorems below. -/
def dotAcc (a b : List Int) (k n row col : Nat) : Int :=
  (List.range k).foldl
    (fun acc t =>
      wrap64 (acc + wrap64 (a.getD (row * k + t) 0 * b.getD (t * n + col) 0)))
    0

/-- The requantize-and-clamp value of one output element:
`q = (acc * num) / den` — the `i64` multiplication wraps (release build),
the division truncates toward zero (`Int.tdiv`) — then the clamps
`if q < 0 { 0 }` and `if q > 127 { 127 }`. -/
def entryQ (a b : List Int) (k n : Nat) (num den : Int) (row col : Nat) : Int :=
  let acc := dotAcc a b k n row col
  let q := (wrap64 (acc * num)).tdiv den
  if q < 0 then 0 else if q > 127 then 127 else q

/-- One output element as Rust computes it: the division
`(acc * num as i64) / den as i64` panics — in debug and release alike —
when the dividend is exactly `i64::MIN` and the divisor is `-1`
(division overflow); that panic is `none`. -/
def entryOpt (a b : List Int) (k n : Nat) (num den : Int) (row col : Nat) :
    Option Int :=
  if wrap64 (dotAcc a b k n row col * num) = -9223372036854775808 ∧ den = -1
  then none
  else some (entryQ a b k n num den row col)

/-- `CpuExec::gemm_int8_relu_q` from src/cpu.rs: accumulate, requantize,
clamp, element by element; `none` models the division-overflow panic of the
requantization at any element. -/
def gemm_int8_relu_q (a b : List Int) (m n k : Nat) (num den : Int) :
    Option (List Int) :=
  mkMatO m n (entryOpt a b k n num den)

end CpuExec

/-! ## src/attempt.rs — mixing transform -/

/-- `sign_flip_i8` from src/attempt.rs: keep the value when `sign >= 0`;
otherwise negate, saturating `i8::MIN` (−128) to 127. -/
def sign_flip_i8 (value sign : Int) : Int :=
  if sign ≥ 0 then value else if value = -128 then 127 else -value

/-- `apply_mix_a_columns` from src/attempt.rs: column `new_col` of the output
is column `perm[new_col]` of `a`, sign-flipped with `signs[perm[new_col]]`.
The source fills the same entries with `new_col` as the outer loop; `mkMat`
describes the identical row-major matrix. -/
def apply_mix_a_columns (a : List Int) (m k : Nat) (perm : List Nat)
    (signs : List Int) : List Int :=
  mkMat m k (fun row new_col =>
    sign_flip_i8 (a.getD (row * k + perm.getD new_col 0) 0)
      (signs.getD (perm.getD new_col 0) 0))

/-- `apply_mix_w1_rows` from src/attempt.rs: row `new_row` of the output is
row `perm[new_row]` of `w1`, sign-flipped with `signs[perm[new_row]]`. -/
def apply_mix_w1_rows (w1 : List Int) (k n : Nat) (perm : List Nat)
    (signs : List Int) : List Int :=
  mkMat k n (fun new_row col =>
    sign_flip_i8 (w1.getD (perm.getD new_row 0 * n + col) 0)
      (signs.getD (perm.getD new_row 0) 0))

/-- Exact integer matrix product (row-major, m×k times k×n), the reference
object of the spec's mixing-invariance property. -/
def matmul (a b : List Int) (m n k : Nat) : List Int :=
  mkMat m n (fun r c =>
    ∑ t in Finset.range k, a.getD (r * k + t) 0 * b.getD (t * n + c) 0)

/-! ## src/types.rs — sizes -/

/-- `Sizes` from src/types.rs. -/
structure Sizes where
  m : Nat
  n : Nat
  k : Nat
  batch : Nat
deriving DecidableEq

/-! ## External crates, modelled as explicit parameters

blake3, the rand `StdRng` Fisher–Yates shuffle and the rand_xoshiro
`Xoshiro128PlusPlus` generator are third-party crates, not sources of this
repository.  They are modelled as a record of pure functions; every theorem
about the pipeline quantifies over this record (with explicit contracts,
e.g. that the shuffle permutes its input, where a theorem needs one). -/

structure Extern where
  /-- `blake3::hash` / `Hasher::finalize`: input bytes to 32 output bytes. -/
  blake3 : List Nat → List Nat
  /-- `SliceRandom::shuffle` with `StdRng::from_seed seed32`: the shuffled
  copy of the input list. -/
  stdShuffle : List Nat → List Nat → List Nat
  /-- `Xoshiro128PlusPlus::from_seed seed16` as a stream: the value of the
  i-th `next_u32()` call. -/
  prng32 : List Nat → Nat → Nat

/-- UTF-8 bytes of a Rust string / byte literal. -/
def strBytes (s : String) : List Nat := s.toUTF8.toList.map (fun b => b.toNat)

/-! ## src/prng.rs — deterministic PRNG wrapper and seed derivation -/

/-- The incremental `blake3::Hasher`: `update` appends bytes, `finalize`
hashes everything accumulated so far. -/
structure Hasher where
  acc : List Nat

def Hasher.new : Hasher := ⟨[]⟩

def Hasher.update (h : Hasher) (d : List Nat) : Hasher := ⟨h.acc ++ d⟩

def Hasher.finalize (b3 : List Nat → List Nat) (h : Hasher) : List Nat :=
  b3 h.acc

/-- `DPrng` from src/prng.rs: a `Xoshiro128PlusPlus` seeded with 16 bytes.
The state is the seed plus how many `next_u32` outputs were consumed. -/
structure DPrng where
  seed : List Nat
  pos : Nat

def DPrng.from_seed (s : List Nat) : DPrng := ⟨s, 0⟩

/-- `next_u32`: the next 32-bit output of the underlying generator. -/
def DPrng.next_u32 (e : Extern) (p : DPrng) : Nat × DPrng :=
  (e.prng32 p.seed p.pos, ⟨p.seed, p.pos + 1⟩)

/-- Rust `x as i8`: the low byte, two's complement. -/
def i8OfU32 (x : Nat) : Int :=
  if x % 256 < 128 then (x % 256 : Nat) else (x % 256 : Nat) - 256

/-- `next_i8`: `next_u32() as i8`. -/
def DPrng.next_i8 (e : Extern) (p : DPrng) : Int × DPrng :=
  (i8OfU32 (e.prng32 p.seed p.pos), ⟨p.seed, p.pos + 1⟩)

/-- `derive_seed` from src/prng.rs: hash `prev_hash_32 ‖ LE32(nonce)` with
blake3 and keep the first 16 bytes (`out.as_bytes()[..16]`). -/
def derive_seed (b3 : List Nat → List Nat) (prev_hash_32 : List Nat)
    (nonce : Nat) : List Nat :=
  (((Hasher.new).update prev_hash_32).update (leBytes 4 nonce)).finalize b3
    |>.take 16

/-! ## src/attempt.rs — attempt pipeline -/

/-- `gen_int8_matrix` from src/attempt.rs: `len` successive `next_i8` draws,
together with the advanced generator state. -/
def gen_int8_matrix (e : Extern) (p : DPrng) (len : Nat) : List Int × DPrng :=
  (List.ofFn (fun i : Fin len => i8OfU32 (e.prng32 p.seed (p.pos + i.val))),
    ⟨p.seed, p.pos + len⟩)

/-- `build_permutation_and_signs` from src/attempt.rs: shuffle `0..k` with a
`StdRng` seeded by `blake3(seed16)`, and draw `k` sign bits (`next_u32() & 1`,
bit 0 ↦ +1, bit 1 ↦ −1) from a `DPrng` seeded by `seed16`. -/
def build_permutation_and_signs (e : Extern) (k : Nat) (seed16 : List Nat) :
    List Nat × List Int :=
  (e.stdShuffle (e.blake3 seed16) (List.range k),
    List.ofFn (fun i : Fin k => if e.prng32 seed16 i.val % 2 = 0 then 1 else -1))

/-- `AttemptOutput` from src/attempt.rs.  Wall-clock timing is not part of
the functional model, so `elapsed_ms` is fixed to 0. -/
structure AttemptOutput where
  work_root : List Nat
  y1 : List Int
  y2_samples : List Int
  elapsed_ms : Nat
deriving DecidableEq

/-- The fixed-weights tag `b"FIXED_WEIGHTS_V1"`. -/
def FIXED_WEIGHTS_TAG : List Nat := strBytes "FIXED_WEIGHTS_V1"

/-- The fixed weight seed: `blake3(b"FIXED_WEIGHTS_V1")[..16]`. -/
def wSeed (e : Extern) : List Nat := (e.blake3 FIXED_WEIGHTS_TAG).take 16

/-- The per-attempt input matrix `A`: `m*k` draws from a `DPrng` seeded with
the attempt seed. -/
def attempt_a (e : Extern) (seed : List Nat) (sz : Sizes) : List Int :=
  (gen_int8_matrix e (DPrng.from_seed seed) (sz.m * sz.k)).1

/-- `W1`: the first `k*n` draws from the fixed-weight `DPrng`. -/
def attempt_w1 (e : Extern) (sz : Sizes) : List Int :=
  (gen_int8_matrix e (DPrng.from_seed (wSeed e)) (sz.k * sz.n)).1

/-- `W2`: the next `n*n` draws from the same fixed-weight `DPrng`, after
`W1` was generated. -/
def attempt_w2 (e : Extern) (sz : Sizes) : List Int :=
  (gen_int8_matrix e
    (gen_int8_matrix e (DPrng.from_seed (wSeed e)) (sz.k * sz.n)).2
    (sz.n * sz.n)).1

/-- `Y1 = gemm_int8_relu_q(A', W1', m, n, k, 1, 256)` with `(A', W1')` the
mixed pair.  The executor is the scalar reference (`CpuExec`); its failure
is propagated by `?` in the source, hence the `Option`. -/
def attempt_y1 (e : Extern) (seed : List Nat) (sz : Sizes) : Option (List Int) :=
  CpuExec.gemm_int8_relu_q
    (apply_mix_a_columns (attempt_a e seed sz) sz.m sz.k
      (build_permutation_and_signs e sz.k seed).1
      (build_permutation_and_signs e sz.k seed).2)
    (apply_mix_w1_rows (attempt_w1 e sz) sz.k sz.n
      (build_permutation_and_signs e sz.k seed).1
      (build_permutation_and_signs e sz.k seed).2)
    sz.m sz.n sz.k 1 256

/-- The shuffled index list of `run_attempt`: `(0..m*n)` shuffled by a
`StdRng` seeded with `blake3(seed16)`. -/
def sampleIndices (e : Extern) (seed : List Nat) (mn : Nat) : List Nat :=
  e.stdShuffle (e.blake3 seed) (List.range mn)

/-- The sampling loop `for &idx in take { samp.push(y2[idx]) }`: `y2[idx]`
panics when `idx` is out of bounds, modelled by `none`. -/
def takeSamples (y2 : List Int) : List Nat → Option (List Int)
  | [] => some []
  | i :: rest =>
      match y2.get? i, takeSamples y2 rest with
      | some v, some vs => some (v :: vs)
      | _, _ => none

/-- Cast `i8` to `u8` (`v as u8`): the two's-complement low byte. -/
def i8Byte (v : Int) : Nat := (v % 256).toNat

/-- The byte string hashed into `work_root`:
`samp` reinterpreted as bytes, then `m.to_le_bytes()`, `n.to_le_bytes()`,
`k.to_le_bytes()`.  `wordBytes` is the byte width of `usize` on the target
(8 on 64-bit platforms, 4 on 32-bit ones). -/
def work_msg (samp : List Int) (wordBytes m n k : Nat) : List Nat :=
  samp.map i8Byte ++ leBytes wordBytes m ++ leBytes wordBytes n ++
    leBytes wordBytes k

/-- `run_attempt` from src/attempt.rs.  `none` models a `?`-propagated
executor error (`Y1 = gemm(...)?`, `Y2 = gemm(Y1, W2, m, n, n, 1, 256)?`)
as well as a panic (the `&indices[..256]` slice or the `y2[idx]` index out
of bounds).  The executor is the scalar reference; `wordBytes` is the
target's `usize` width in bytes. -/
def run_attempt (e : Extern) (wordBytes : Nat) (prev_hash_32 : List Nat)
    (nonce : Nat) (sz : Sizes) : Option AttemptOutput :=
  let seed := derive_seed e.blake3 prev_hash_32 nonce
  match attempt_y1 e seed sz with
  | none => none
  | some y1 =>
      match CpuExec.gemm_int8_relu_q y1 (attempt_w2 e sz)
          sz.m sz.n sz.n 1 256 with
      | none => none
      | some y2 =>
          let indices := sampleIndices e seed (sz.m * sz.n)
          if 256 ≤ indices.length then
            match takeSamples y2 (indices.take 256) with
            | some samp =>
                some ⟨e.blake3 (work_msg samp wordBytes sz.m sz.n sz.k),
                  y1, samp, 0⟩
            | none => none
          else none

/-! ## src/types.rs — the work receipt -/

/-- `WorkReceipt` from src/types.rs, fields in declaration order (the order
serde_json serializes them in). -/
structure WorkReceipt where
  device_did : String
  epoch_id : Nat
  prev_hash_hex : String
  nonce : Nat
  work_root_hex : String
  sizes : Sizes
  time_ms : Nat
  kernel_ver : String
  driver_hint : String
  sig_hex : String
deriving DecidableEq

/-! ## src/signing.rs — canonical digest and signature -/

/-- The lowercase hex digit for `n < 16` (the digits `0`-`9` then `a`-`f`,
serde_json's and the hex crate's table). -/
def hexDigitChar (n : Nat) : Char :=
  if n < 10 then Char.ofNat (48 + n) else Char.ofNat (87 + n)

/-- serde_json's string escaping: `"` and `\` are escaped, the five short
control escapes are used, remaining control characters become `\u00xx`. -/
def escapeChar (c : Char) : String :=
  if c = '"' then "\\\""
  else if c = '\\' then "\\\\"
  else if c = '\n' then "\\n"
  else if c = '\r' then "\\r"
  else if c = '\t' then "\\t"
  else if c.toNat = 8 then "\\b"
  else if c.toNat = 12 then "\\f"
  else if c.toNat < 32 then
    "\\u00" ++ String.mk [hexDigitChar (c.toNat / 16), hexDigitChar (c.toNat % 16)]
  else String.singleton c

def jsonString (s : String) : String :=
  "\"" ++ String.join (s.data.map escapeChar) ++ "\""

/-- serde_json encoding of `Sizes` (nested object, declaration order). -/
def jsonSizes (z : Sizes) : String :=
  "\x7b\"m\":" ++ toString z.m ++ ",\"n\":" ++ toString z.n ++
    ",\"k\":" ++ toString z.k ++ ",\"batch\":" ++ toString z.batch ++ "\x7d"

/-- `serde_json::to_vec(&receipt)` as a string: a JSON object with the
fields in struct declaration order — the stable field-ordered encoding. -/
def jsonOfReceipt (r : WorkReceipt) : String :=
  "\x7b\"device_did\":" ++ jsonString r.device_did ++
    ",\"epoch_id\":" ++ toString r.epoch_id ++
    ",\"prev_hash_hex\":" ++ jsonString r.prev_hash_hex ++
    ",\"nonce\":" ++ toString r.nonce ++
    ",\"work_root_hex\":" ++ jsonString r.work_root_hex ++
    ",\"sizes\":" ++ jsonSizes r.sizes ++
    ",\"time_ms\":" ++ toString r.time_ms ++
    ",\"kernel_ver\":" ++ jsonString r.kernel_ver ++
    ",\"driver_hint\":" ++ jsonString r.driver_hint ++
    ",\"sig_hex\":" ++ jsonString r.sig_hex ++ "\x7d"

/-- `encode_hex`: lowercase hex of a byte string. -/
def hexOfBytes (bs : List Nat) : String :=
  String.mk ((bs.map (fun b => [hexDigitChar (b / 16), hexDigitChar (b % 16)])).flatten)

/-- The external cryptographic primitives used by `Secp::sign_receipt`:
blake3 (32-byte output), SHA-256 (32-byte output), and k256's deterministic
RFC 6979 ECDSA prehash signer producing the 64-byte lower-S compact `r‖s`
signature for a given secret key and 32-byte digest. -/
structure SigExtern where
  blake3 : List Nat → List Nat
  sha256 : List Nat → List Nat
  sign_prehash : List Nat → List Nat → List Nat

/-- `Secp` from src/signing.rs: holds the 32-byte secp256k1 secret scalar. -/
structure Secp where
  sk : List Nat

/-- `Secp::sign_receipt` from src/signing.rs: clone the receipt, blank
`sig_hex`, serialize with serde_json, hash with a blake3 `Hasher`, hash that
with SHA-256, sign the digest with `sign_prehash`, and hex-encode the
compact signature.  The borrowed input receipt is never mutated (the Rust
code works on a `clone`; in this functional model immutability is
intrinsic). -/
def Secp.sign_receipt (e : SigExtern) (s : Secp) (r : WorkReceipt) : String :=
  let copy := { r with sig_hex := "" }
  let json := strBytes (jsonOfReceipt copy)
  let b3 := ((Hasher.new).update json).finalize e.blake3
  let digest := e.sha256 b3
  let sig := e.sign_prehash s.sk digest
  hexOfBytes sig

/-! ## src/main.rs — autotuner -/

/-- The loop of `autotune_sizes` (src/main.rs, `gpu` build): state is the
remaining candidates, the current nonce, `best_sizes` and `best_score`
(initially `u64::MAX`).  A failing attempt propagates the error (`?`),
modelled by `none`; the final `best_sizes.ok_or_else(...)` maps a missing
best to an error, i.e. `none`. -/
def autotune_go (attemptMs : Nat → Sizes → Option Nat) (target : Nat) :
    List Sizes → Nat → Option Sizes → Nat → Option Sizes
  | [], _, best, _ => best
  | s :: rest, nonce, best, bestScore =>
      match attemptMs nonce s with
      | none => none
      | some dt =>
          if Nat.dist dt target < bestScore then
            autotune_go attemptMs target rest ((nonce + 1) % 4294967296)
              (some s) (Nat.dist dt target)
          else
            autotune_go attemptMs target rest ((nonce + 1) % 4294967296)
              best bestScore

/-- `autotune_sizes` from src/main.rs: run one attempt per candidate with
increasing (wrapping u32) nonces starting at 0, keep the candidate whose
`elapsed_ms` minimizes `|elapsed_ms − target_ms|` (strict improvement only,
so earlier candidates win ties).  `attemptMs` is the measured `elapsed_ms`
of `run_attempt` for a nonce and size, `none` when the attempt fails. -/
def autotune_sizes (attemptMs : Nat → Sizes → Option Nat) (target : Nat)
    (cands : List Sizes) : Option Sizes :=
  autotune_go attemptMs target cands 0 none 18446744073709551615

/-- The spec-level chooser: the earliest candidate minimizing the score
("select the candidate minimizing |elapsed_ms − target_ms|, ties broken by
order of appearance"). -/
def specChoose (score : Sizes → Nat) : List Sizes → Option Sizes
  | [] => none
  | s :: rest =>
      match specChoose score rest with
      | none => some s
      | some t => if score s ≤ score t then some s else some t

/-! ## src/cl_kernels.rs — the OpenCL kernel `gemm_int8_relu_q` -/

namespace ClKernel

/-- The accumulation loop of the OpenCL kernel in `GEMM_INT8`
(src/cl_kernels.rs): `int acc = 0; for t { acc += (int)A[...] * (int)B[...] }`.
`acc` is a C `int`, i.e. 32 bits, hence `wrap32`.  The operands come from
`char` arrays, so each product is far below the `int` range; the `wrap32`
around the product mirrors that the multiplication is an `int` operation. -/
def dotAcc (a b : List Int) (k lda ldb row col : Nat) : Int :=
  (List.range k).foldl
    (fun acc t =>
      wrap32 (acc + wrap32 (a.getD (row * lda + t) 0 * b.getD (t * ldb + col) 0)))
    0

/-- The OpenCL kernel `gemm_int8_relu_q` as dispatched by
`GpuExec::gemm_int8_relu_q` (src/gpu.rs), which passes `lda = k`, `ldb = n`:
a 2-D grid over (row, col); per element a 32-bit accumulation, then
`long tmp = ((long)acc * (long)num) / (long)den` (C division truncates toward
zero), then the [0, 127] clamp. -/
def gemm_int8_relu_q (a b : List Int) (m n k : Nat) (num den : Int) : List Int :=
  mkMat m n (fun row col =>
    let acc := dotAcc a b k k n row col
    let tmp := (wrap64 (acc * num)).tdiv den
    if tmp < 0 then 0 else if tmp > 127 then 127 else tmp)

end ClKernel

/-- The deterministic instantiation of the external crates used by concrete
witnesses: a constant hash, the identity shuffle, a constant generator. -/
def identExtern : Extern :=
  ⟨fun _ => List.replicate 32 0, fun _ l => l, fun _ _ => 0⟩

/-- The deterministic instantiation of the cryptographic externals used by
concrete witnesses. -/
def sigExtern0 : SigExtern :=
  ⟨fun _ => List.replicate 32 0, fun _ => List.replicate 32 0,
    fun _ _ => List.replicate 64 0⟩

/-- A concrete receipt used by witnesses. -/
def receipt0 : WorkReceipt :=
  ⟨"did:peaq:worker", 1,
    "aaaaaaaaaaaaaaaaaaaaaaaaaaaaaaaaaaaaaaaaaaaaaaaaaaaaaaaaaaaaaaaa", 7,
    "bbbbbbbbbbbbbbbbbbbbbbbbbbbbbbbbbbbbbbbbbbbbbbbbbbbbbbbbbbbbbbbb",
    ⟨1024, 1024, 1024, 1⟩, 312, "gemm_int8_relu_q_v1", "OpenCL", ""⟩

/-! ## Helper lemmas -/

theorem mkMat_length (m n : Nat) (f : Nat → Nat → Int) :
    (mkMat m n f).length = m * n := by
  simp [mkMat]

theorem mkMat_getD (m n : Nat) (f : Nat → Nat → Int) (r c : Nat)
    (hr : r < m) (hc : c < n) :
    (mkMat m n f).getD (r * n + c) 0 = f r c := by
  have hn : 0 < n := Nat.lt_of_le_of_lt (Nat.zero_le c) hc
  have hidx : r * n + c < m * n := by
    have h1 : r * n + c < (r + 1) * n := by
      rw [Nat.succ_mul]
      exact Nat.add_lt_add_left hc _
    exact Nat.lt_of_lt_of_le h1 (Nat.mul_le_mul_right n hr)
  have hdiv : (r * n + c) / n = r := by
    rw [Nat.mul_comm r n, Nat.mul_add_div hn, Nat.div_eq_of_lt hc, Nat.add_zero]
  have hmod : (r * n + c) % n = c := by
    rw [Nat.mul_comm r n, Nat.mul_add_mod, Nat.mod_eq_of_lt hc]
  simp only [mkMat]
  rw [List.getD_eq_getElem _ _ (by simpa using hidx), List.getElem_ofFn]
  simp only [hdiv, hmod]

/-- Fold of pure additions over `0..k` equals the finite sum. -/
theorem foldl_add_eq_sum (f : Nat → Int) (k : Nat) :
    (List.range k).foldl (fun acc t => acc + f t) 0 =
      ∑ t in Finset.range k, f t := by
  induction k with
  | zero => simp
  | succ k ih =>
      rw [List.range_succ, List.foldl_append, Finset.sum_range_succ, ih]
      rfl

/-- Congruence for folds over `0..k`: the two step functions only have to
agree on indices below `k`. -/
theorem range_foldl_congr {α : Type} (g1 g2 : α → Nat → α) (k : Nat) (init : α)
    (h : ∀ acc t, t < k → g1 acc t = g2 acc t) :
    (List.range k).foldl g1 init = (List.range k).foldl g2 init := by
  induction k with
  | zero => rfl
  | succ k ih =>
      rw [List.range_succ, List.foldl_append, List.foldl_append,
        ih (fun acc t ht => h acc t (Nat.lt_succ_of_lt ht))]
      exact h _ k (Nat.lt_succ_self k)

/-- A fold that re-wraps after every addition computes the wrap of the pure
fold, for any wrap function that absorbs itself over addition. -/
theorem foldl_wrap_add (w : Int → Int) (hw : ∀ x y, w (w x + y) = w (x + y))
    (hw0 : w 0 = 0) (f : Nat → Int) (k : Nat) :
    (List.range k).foldl (fun acc t => w (acc + f t)) 0 =
      w ((List.range k).foldl (fun acc t => acc + f t) 0) := by
  induction k with
  | zero => simpa using hw0.symm
  | succ k ih =>
      rw [List.range_succ, List.foldl_append, List.foldl_append, ih]
      show w (w _ + f k) = w (_ + f k)
      exact hw _ _

theorem wrap32_absorb (x y : Int) : wrap32 (wrap32 x + y) = wrap32 (x + y) := by
  unfold wrap32; omega

theorem wrap64_absorb (x y : Int) : wrap64 (wrap64 x + y) = wrap64 (x + y) := by
  unfold wrap64; omega

theorem wrap32_eq_self (x : Int) (h1 : -2147483648 ≤ x) (h2 : x < 2147483648) :
    wrap32 x = x := by
  unfold wrap32; omega

theorem wrap64_eq_self (x : Int) (h1 : -9223372036854775808 ≤ x)
    (h2 : x < 9223372036854775808) : wrap64 x = x := by
  unfold wrap64; omega


theorem getD_replicate (c : Int) (n i : Nat) (h : i < n) :
    (List.replicate n c).getD i 0 = c := by
  rw [List.getD_eq_getElem _ _ (by simpa using h), List.getElem_replicate]

theorem foldl_wrap_const (w : Int → Int) (hw : ∀ x y, w (w x + y) = w (x + y))
    (hw0 : w 0 = 0) (c : Int) :
    ∀ K : Nat, (List.range K).foldl (fun acc _ => w (acc + c)) 0 = w (K * c)
  | 0 => by simpa using hw0.symm
  | K + 1 => by
      rw [List.range_succ, List.foldl_append,
        foldl_wrap_const w hw hw0 c K]
      show w (w ((K : Int) * c) + c) = w (((K + 1 : Nat) : Int) * c)
      rw [hw]
      congr 1
      push_cast
      ring

theorem mkMat_one_one (f : Nat → Nat → Int) : mkMat 1 1 f = [f 0 0] := by
  unfold mkMat
  rw [List.ofFn_succ, List.ofFn_zero]
  simp

theorem mkMat_congr (m n : Nat) (f g : Nat → Nat → Int)
    (h : ∀ r c, r < m → c < n → f r c = g r c) : mkMat m n f = mkMat m n g := by
  unfold mkMat
  congr 1
  funext i
  have hi := i.isLt
  rcases Nat.eq_zero_or_pos n with h0 | hn
  · exact absurd hi (by simp [h0])
  · exact h _ _ ((Nat.div_lt_iff_lt_mul hn).mpr hi) (Nat.mod_lt _ hn)

theorem sign_flip_i8_neg (v : Int) (h : v ≠ -128) : sign_flip_i8 v (-1) = -v := by
  unfold sign_flip_i8
  rw [if_neg (by norm_num), if_neg h]

theorem sign_flip_i8_pos (v : Int) : sign_flip_i8 v 1 = v := by
  unfold sign_flip_i8
  rw [if_pos (by norm_num)]

theorem sum_range_getD (l : List Nat) (F : Nat → Int) :
    ∑ j in Finset.range l.length, F (l.getD j 0) = (l.map F).sum := by
  induction l with
  | nil => simp
  | cons x xs ih =>
      rw [List.length_cons, Finset.sum_range_succ']
      simp only [List.getD_cons_succ, List.getD_cons_zero]
      rw [ih, List.map_cons, List.sum_cons]
      ring

theorem sum_range_perm (perm : List Nat) (k : Nat)
    (h : perm.Perm (List.range k)) (F : Nat → Int) :
    ∑ j in Finset.range k, F (perm.getD j 0) = ∑ t in Finset.range k, F t := by
  have hlen : perm.length = k := by simpa using h.length_eq
  calc ∑ j in Finset.range k, F (perm.getD j 0)
      = (perm.map F).sum := by rw [← hlen, sum_range_getD]
    _ = ((List.range k).map F).sum := (h.map F).sum_eq
    _ = ∑ t in Finset.range k, F t := by
        rw [← sum_range_getD (List.range k) F, List.length_range]
        exact Finset.sum_congr rfl (fun j hj => by
          rw [List.getD_eq_getElem _ _ (by simpa using Finset.mem_range.mp hj),
            List.getElem_range])

theorem seqOption_map_some : ∀ l : List Int, seqOption (l.map some) = some l
  | [] => rfl
  | v :: rest => by
      show (match some v, seqOption (rest.map some) with
        | some v, some vs => some (v :: vs)
        | _, _ => none) = some (v :: rest)
      rw [seqOption_map_some rest]

theorem mkMatO_one_one (f : Nat → Nat → Option Int) :
    mkMatO 1 1 f = seqOption [f 0 0] := by
  unfold mkMatO
  rw [List.ofFn_succ, List.ofFn_zero]
  simp

/-- The executor succeeds and equals the matrix of requantized entries
exactly when no element's requantization division overflows. -/
theorem gemm_eq_some (a b : List Int) (m n k : Nat) (num den : Int)
    (h : ∀ r c, r < m → c < n →
      ¬(wrap64 (CpuExec.dotAcc a b k n r c * num) = -9223372036854775808 ∧
        den = -1)) :
    CpuExec.gemm_int8_relu_q a b m n k num den =
      some (mkMat m n (CpuExec.entryQ a b k n num den)) := by
  unfold CpuExec.gemm_int8_relu_q mkMatO mkMat
  have heq : (List.ofFn (fun i : Fin (m * n) =>
      CpuExec.entryOpt a b k n num den (i.val / n) (i.val % n))) =
      (List.ofFn (fun i : Fin (m * n) =>
        CpuExec.entryQ a b k n num den (i.val / n) (i.val % n))).map some := by
    rw [List.map_ofFn]
    congr 1
    funext i
    have hi := i.isLt
    rcases Nat.eq_zero_or_pos n with h0 | hn
    · exact absurd hi (by simp [h0])
    · show CpuExec.entryOpt a b k n num den (i.val / n) (i.val % n) =
        some (CpuExec.entryQ a b k n num den (i.val / n) (i.val % n))
      unfold CpuExec.entryOpt
      rw [if_neg (h _ _ ((Nat.div_lt_iff_lt_mul hn).mpr hi) (Nat.mod_lt _ hn))]
  rw [heq, seqOption_map_some]

/-- In particular the executor always succeeds when `den ≠ -1` (so at the
protocol scales num = 1, den = 256). -/
theorem gemm_den_ne_neg_one (a b : List Int) (m n k : Nat) (num den : Int)
    (hden : den ≠ -1) :
    CpuExec.gemm_int8_relu_q a b m n k num den =
      some (mkMat m n (CpuExec.entryQ a b k n num den)) :=
  gemm_eq_some a b m n k num den (fun _ _ _ _ hc => hden hc.2)

theorem cpu_dot_replicate (K : Nat) (c : Int) (h1 : -128 ≤ c) (h2 : c ≤ 127) :
    CpuExec.dotAcc (List.replicate K c) (List.replicate K c) K 1 0 0 =
      wrap64 (K * (c * c)) := by
  rw [CpuExec.dotAcc]
  rw [range_foldl_congr _ (fun acc _ => wrap64 (acc + c * c)) K 0 (by
    intro acc t ht
    show wrap64 (acc + wrap64 ((List.replicate K c).getD (0 * K + t) 0 *
        (List.replicate K c).getD (t * 1 + 0) 0)) = wrap64 (acc + c * c)
    rw [Nat.zero_mul, Nat.zero_add, Nat.mul_one, Nat.add_zero,
      getD_replicate _ _ _ ht,
      wrap64_eq_self (c * c) (by nlinarith [mul_self_nonneg c])
        (by nlinarith [mul_self_nonneg c])])]
  rw [foldl_wrap_const wrap64 wrap64_absorb (by decide) (c * c) K]

theorem cpu_dot_ones :
    CpuExec.dotAcc (List.replicate 4294967296 (1 : Int))
      (List.replicate 4294967296 (1 : Int)) 4294967296 1 0 0 = 4294967296 := by
  rw [cpu_dot_replicate 4294967296 1 (by decide) (by decide)]
  decide

/-- C1 counterexample: within the claim's quantifiers (i8 matrices, positive
m, n, k, scale_den ≠ 0) the requantization division can overflow: at
m = n = 1, k = 2^32, all entries 1 (so acc = 2^32), scale_num = −2^31 and
scale_den = −1 the dividend is exactly i64::MIN and Rust's division panics —
in debug and release alike — so the executor returns no matrix at all
(`none`) where the claim asserts an entry value of 127. -/
theorem C1_counterexample :
    CpuExec.gemm_int8_relu_q (List.replicate 4294967296 (1 : Int))
      (List.replicate 4294967296 (1 : Int)) 1 1 4294967296
      (-2147483648) (-1) = none := by
  have hentry : CpuExec.entryOpt (List.replicate 4294967296 (1 : Int))
      (List.replicate 4294967296 (1 : Int)) 4294967296 1
      (-2147483648) (-1) 0 0 = none := by
    unfold CpuExec.entryOpt
    rw [cpu_dot_ones, if_pos (by decide)]
  show mkMatO 1 1 (CpuExec.entryOpt (List.replicate 4294967296 (1 : Int))
    (List.replicate 4294967296 (1 : Int)) 4294967296 1 (-2147483648) (-1)) =
    none
  rw [mkMatO_one_one, hentry]
  rfl

/-- C1 amended: for i8 matrices A (m×k) and B (k×n), positive sizes and
nonzero `scale_den`, provided no element's requantization divides i64::MIN
by −1 (the only input on which Rust's division panics), the reference
executor returns the m×n matrix whose entry (r,c) is obtained by
accumulating the dot product in a 64-bit signed accumulator, requantizing
with truncation toward zero, and clamping to [0, 127]. -/
theorem C1_gemm_int8_relu_q_spec (a b : List Int) (m n k : Nat) (num den : Int)
    (hm : 0 < m) (hn : 0 < n) (hk : 0 < k)
    (hla : a.length = m * k) (hlb : b.length = k * n)
    (ha : ∀ i, i < m * k → -128 ≤ a.getD i 0 ∧ a.getD i 0 ≤ 127)
    (hb : ∀ i, i < k * n → -128 ≤ b.getD i 0 ∧ b.getD i 0 ≤ 127)
    (hden : den ≠ 0)
    (hnov : ∀ r c, r < m → c < n →
      ¬(wrap64 (CpuExec.dotAcc a b k n r c * num) = -9223372036854775808 ∧
        den = -1)) :
    ∃ y, CpuExec.gemm_int8_relu_q a b m n k num den = some y ∧
      y.length = m * n ∧
      ∀ r c, r < m → c < n →
        y.getD (r * n + c) 0 =
          min 127 (max 0
            ((wrap64 (wrap64 (∑ t in Finset.range k,
                a.getD (r * k + t) 0 * b.getD (t * n + c) 0) * num)).tdiv den)) := by
  refine ⟨mkMat m n (CpuExec.entryQ a b k n num den),
    gemm_eq_some a b m n k num den hnov, mkMat_length m n _, ?_⟩
  intro r c hr hc
  rw [mkMat_getD m n _ r c hr hc]
  simp only [CpuExec.entryQ]
  have hacc : CpuExec.dotAcc a b k n r c =
      wrap64 (∑ t in Finset.range k, a.getD (r * k + t) 0 * b.getD (t * n + c) 0) := by
    rw [CpuExec.dotAcc]
    rw [range_foldl_congr
      (fun acc t => wrap64 (acc + wrap64 (a.getD (r * k + t) 0 * b.getD (t * n + c) 0)))
      (fun acc t => wrap64 (acc + a.getD (r * k + t) 0 * b.getD (t * n + c) 0)) k 0
      (by
        intro acc t ht
        show wrap64 (acc + wrap64 (a.getD (r * k + t) 0 * b.getD (t * n + c) 0)) =
          wrap64 (acc + a.getD (r * k + t) 0 * b.getD (t * n + c) 0)
        have hia : r * k + t < m * k := by
          have h1 : r * k + t < (r + 1) * k := by
            rw [Nat.succ_mul]; exact Nat.add_lt_add_left ht _
          exact Nat.lt_of_lt_of_le h1 (Nat.mul_le_mul_right k hr)
        have hib : t * n + c < k * n := by
          have h1 : t * n + c < (t + 1) * n := by
            rw [Nat.succ_mul]; exact Nat.add_lt_add_left hc _
          exact Nat.lt_of_lt_of_le h1 (Nat.mul_le_mul_right n ht)
        have hva := ha _ hia
        have hvb := hb _ hib
        rw [wrap64_eq_self (a.getD (r * k + t) 0 * b.getD (t * n + c) 0)
          (by nlinarith [hva.1, hva.2, hvb.1, hvb.2])
          (by nlinarith [hva.1, hva.2, hvb.1, hvb.2])])]
    rw [foldl_wrap_add wrap64 wrap64_absorb (by unfold wrap64; omega) _ k,
      foldl_add_eq_sum]
  rw [hacc]
  set q := (wrap64 (wrap64 (∑ t in Finset.range k,
      a.getD (r * k + t) 0 * b.getD (t * n + c) 0) * num)).tdiv den with hq
  show (if q < 0 then 0 else if q > 127 then 127 else q) = min 127 (max 0 q)
  omega

/-- Witness for C1 at m = n = k = 1, A = [2], B = [3], num = 1, den = 1
(no element's division can overflow there since den ≠ −1). -/
theorem C1_witness :
    (0 < 1 ∧ ([(2 : Int)] : List Int).length = 1 * 1 ∧ (1 : Int) ≠ 0 ∧
      (∀ r c, r < 1 → c < 1 →
        ¬(wrap64 (CpuExec.dotAcc [2] [3] 1 1 r c * 1) = -9223372036854775808 ∧
          (1 : Int) = -1))) ∧
    (∃ y, CpuExec.gemm_int8_relu_q [2] [3] 1 1 1 1 1 = some y ∧
      y.length = 1 * 1 ∧
      ∀ r c, r < 1 → c < 1 →
        y.getD (r * 1 + c) 0 =
          min 127 (max 0
            ((wrap64 (wrap64 (∑ t in Finset.range 1,
                ([(2 : Int)] : List Int).getD (r * 1 + t) 0 *
                  ([(3 : Int)] : List Int).getD (t * 1 + c) 0) * 1)).tdiv 1))) :=
  ⟨⟨by decide, by decide, by decide, fun _ _ _ _ h => absurd h.2 (by decide)⟩,
    C1_gemm_int8_relu_q_spec [2] [3] 1 1 1 1 1 (by decide) (by decide) (by decide)
      (by decide) (by decide) (by decide) (by decide) (by decide)
      (fun _ _ _ _ h => absurd h.2 (by decide))⟩

/-- C2: for i8 matrices A (m×k) and W1 (k×n) with no entry equal to i8::MIN,
any permutation of [0,k) and any ±1 sign vector, the exact integer product
A·W1 equals the product of the mixed pair A'·W1'. -/
theorem C2_mixing_invariance (a w1 : List Int) (m n k : Nat)
    (perm : List Nat) (signs : List Int)
    (hla : a.length = m * k) (hlw : w1.length = k * n)
    (ha : ∀ i, i < m * k → a.getD i 0 ≠ -128)
    (hw : ∀ i, i < k * n → w1.getD i 0 ≠ -128)
    (hperm : perm.Perm (List.range k))
    (hsigns : ∀ i, i < k → signs.getD i 0 = 1 ∨ signs.getD i 0 = -1) :
    matmul a w1 m n k =
      matmul (apply_mix_a_columns a m k perm signs)
        (apply_mix_w1_rows w1 k n perm signs) m n k := by
  have hlenp : perm.length = k := by simpa using hperm.length_eq
  unfold matmul
  apply mkMat_congr
  intro r c hr hc
  have hstep : ∀ t, t < k →
      (apply_mix_a_columns a m k perm signs).getD (r * k + t) 0 *
        (apply_mix_w1_rows w1 k n perm signs).getD (t * n + c) 0 =
      a.getD (r * k + perm.getD t 0) 0 * w1.getD (perm.getD t 0 * n + c) 0 := by
    intro t ht
    have hp : perm.getD t 0 < k := by
      have hmem : perm.getD t 0 ∈ perm := by
        rw [List.getD_eq_getElem _ _ (by rw [hlenp]; exact ht)]
        exact List.getElem_mem _
      exact List.mem_range.mp (hperm.mem_iff.mp hmem)
    have hia : r * k + perm.getD t 0 < m * k := by
      have h1 : r * k + perm.getD t 0 < (r + 1) * k := by
        rw [Nat.succ_mul]; exact Nat.add_lt_add_left hp _
      exact Nat.lt_of_lt_of_le h1 (Nat.mul_le_mul_right k hr)
    have hib : perm.getD t 0 * n + c < k * n := by
      have h1 : perm.getD t 0 * n + c < (perm.getD t 0 + 1) * n := by
        rw [Nat.succ_mul]; exact Nat.add_lt_add_left hc _
      exact Nat.lt_of_lt_of_le h1 (Nat.mul_le_mul_right n hp)
    rw [apply_mix_a_columns, mkMat_getD m k _ r t hr ht,
      apply_mix_w1_rows, mkMat_getD k n _ t c ht hc]
    rcases hsigns _ hp with hs | hs
    · rw [hs, sign_flip_i8_pos, sign_flip_i8_pos]
    · rw [hs, sign_flip_i8_neg _ (ha _ hia), sign_flip_i8_neg _ (hw _ hib)]
      ring
  rw [Finset.sum_congr rfl (fun t htm => hstep t (Finset.mem_range.mp htm))]
  rw [sum_range_perm perm k hperm
    (fun u => a.getD (r * k + u) 0 * w1.getD (u * n + c) 0)]

/-- Witness for C2 at m = n = 1, k = 2, A = [1, 2], W1 = [3, 4],
π = [1, 0], s = [+1, −1]. -/
theorem C2_witness :
    (([(1 : Int), 2] : List Int).length = 1 * 2 ∧
      ([1, 0] : List Nat).Perm (List.range 2) ∧
      (∀ i, i < 2 → ([(1 : Int), -1] : List Int).getD i 0 = 1 ∨
        ([(1 : Int), -1] : List Int).getD i 0 = -1)) ∧
    matmul [1, 2] [3, 4] 1 1 2 =
      matmul (apply_mix_a_columns [1, 2] 1 2 [1, 0] [1, -1])
        (apply_mix_w1_rows [3, 4] 2 1 [1, 0] [1, -1]) 1 1 2 :=
  ⟨⟨by decide, by decide, by decide⟩,
    C2_mixing_invariance [1, 2] [3, 4] 1 1 2 [1, 0] [1, -1]
      (by decide) (by decide) (by decide) (by decide) (by decide) (by decide)⟩

theorem cpu_dot_repl :
    CpuExec.dotAcc (List.replicate 262144 (127 : Int))
      (List.replicate 262144 (127 : Int)) 262144 1 0 0 = 4228120576 := by
  rw [CpuExec.dotAcc]
  rw [range_foldl_congr _ (fun acc _ => wrap64 (acc + 16129)) 262144 0 (by
    intro acc t ht
    show wrap64 (acc + wrap64 ((List.replicate 262144 (127 : Int)).getD (0 * 262144 + t) 0 *
        (List.replicate 262144 (127 : Int)).getD (t * 1 + 0) 0)) = wrap64 (acc + 16129)
    rw [Nat.zero_mul, Nat.zero_add, Nat.mul_one, Nat.add_zero,
      getD_replicate _ _ _ ht,
      show wrap64 (127 * 127) = 16129 from by decide])]
  rw [foldl_wrap_const wrap64 wrap64_absorb (by decide) 16129 262144]
  decide

theorem cl_dot_repl :
    ClKernel.dotAcc (List.replicate 262144 (127 : Int))
      (List.replicate 262144 (127 : Int)) 262144 262144 1 0 0 = -66846720 := by
  rw [ClKernel.dotAcc]
  rw [range_foldl_congr _ (fun acc _ => wrap32 (acc + 16129)) 262144 0 (by
    intro acc t ht
    show wrap32 (acc + wrap32 ((List.replicate 262144 (127 : Int)).getD (0 * 262144 + t) 0 *
        (List.replicate 262144 (127 : Int)).getD (t * 1 + 0) 0)) = wrap32 (acc + 16129)
    rw [Nat.zero_mul, Nat.zero_add, Nat.mul_one, Nat.add_zero,
      getD_replicate _ _ _ ht,
      show wrap32 (127 * 127) = 16129 from by decide])]
  rw [foldl_wrap_const wrap32 wrap32_absorb (by decide) 16129 262144]
  decide

/-- C3: at m = n = 1, k = 262144 (within the sizes the spec supports) with all
inputs 127 and scales num = 1, den = 256, the scalar reference executor
outputs [127] while the OpenCL kernel, whose accumulator is a 32-bit C `int`
that wraps to a negative value, outputs [0]: the two backends are not
byte-identical, contradicting the spec's bit-exactness contract and its
mandated 64-bit accumulation. -/
theorem C3_backend_divergence :
    CpuExec.gemm_int8_relu_q (List.replicate 262144 (127 : Int))
        (List.replicate 262144 (127 : Int)) 1 1 262144 1 256 = some [127] ∧
    ClKernel.gemm_int8_relu_q (List.replicate 262144 (127 : Int))
        (List.replicate 262144 (127 : Int)) 1 1 262144 1 256 = [0] := by
  constructor
  · rw [gemm_den_ne_neg_one _ _ _ _ _ _ _ (by decide : (256 : Int) ≠ -1),
      mkMat_one_one]
    simp only [CpuExec.entryQ, cpu_dot_repl]
    decide
  · rw [ClKernel.gemm_int8_relu_q, mkMat_one_one]
    simp only [cl_dot_repl]
    decide

theorem takeSamples_all_lt (y2 : List Int) (idxs : List Nat)
    (h : ∀ i ∈ idxs, i < y2.length) :
    ∃ vs, takeSamples y2 idxs = some vs ∧ vs.length = idxs.length := by
  induction idxs with
  | nil => exact ⟨[], rfl, rfl⟩
  | cons i rest ih =>
      obtain ⟨vs, hvs, hlen⟩ := ih (fun j hj => h j (List.mem_cons_of_mem _ hj))
      have hi : i < y2.length := h i (List.mem_cons_self _ _)
      refine ⟨y2.get ⟨i, hi⟩ :: vs, ?_, by simp [hlen]⟩
      simp [takeSamples, hvs, List.getElem?_eq_getElem hi]

/-- C4: `derive_seed` is exactly the first 16 bytes of
`blake3(prev_hash_32 ‖ LE32(nonce))`; it is a pure function of its
arguments (it is a Lean function of them), and given the 32-byte blake3
output its result has 16 bytes. -/
theorem C4_derive_seed (b3 : List Nat → List Nat) (prev : List Nat)
    (nonce : Nat) (h32 : (b3 (prev ++ leBytes 4 nonce)).length = 32) :
    derive_seed b3 prev nonce = (b3 (prev ++ leBytes 4 nonce)).take 16 ∧
    (derive_seed b3 prev nonce).length = 16 := by
  have h : derive_seed b3 prev nonce = (b3 (prev ++ leBytes 4 nonce)).take 16 := by
    simp [derive_seed, Hasher.new, Hasher.update, Hasher.finalize]
  refine ⟨h, ?_⟩
  rw [h, List.length_take, h32]
  omega

/-- Witness for C4 with the constant 32-byte hash, the all-0xAA previous
hash and nonce 1. -/
theorem C4_witness :
    ((fun _ : List Nat => List.replicate 32 (0 : Nat))
        (List.replicate 32 170 ++ leBytes 4 1)).length = 32 ∧
    (derive_seed (fun _ => List.replicate 32 (0 : Nat))
        (List.replicate 32 170) 1).length = 16 :=
  ⟨rfl, (C4_derive_seed (fun _ => List.replicate 32 0)
    (List.replicate 32 170) 1 rfl).2⟩

theorem work_msg_length (s : List Int) (w m n k : Nat) :
    (work_msg s w m n k).length = s.length + (w + w + w) := by
  simp [work_msg, leBytes]
  ring

/-- C5: the work root is the hash of the sampled Y2 bytes followed by the
`usize::to_le_bytes` encodings of m, n, k — the byte width is the target's
word size, not a canonical 8: on a 32-bit target (`wordBytes = 4`) the
hashed message differs from the 8-byte-encoded one at the very same attempt,
so the "exactly 8 bytes regardless of platform word size" part of the claim
fails on the code. -/
theorem C5_work_root_usize_width :
    (∀ (e : Extern) (w : Nat) (prev : List Nat) (nonce : Nat) (sz : Sizes),
      (run_attempt e w prev nonce sz).map (fun o => o.work_root) =
        (run_attempt e w prev nonce sz).map
          (fun o => e.blake3 (work_msg o.y2_samples w sz.m sz.n sz.k))) ∧
    work_msg (List.replicate 256 0) 4 2 2 2 ≠
      work_msg (List.replicate 256 0) 8 2 2 2 := by
  constructor
  · intro e w prev nonce sz
    simp only [run_attempt]
    split
    · rfl
    · split
      · rfl
      · split
        · split
          · rfl
          · rfl
        · rfl
  · intro hcontra
    have hlen := congrArg List.length hcontra
    rw [work_msg_length, work_msg_length, List.length_replicate] at hlen
    omega

/-- C10: `run_attempt` unconditionally slices the first 256 shuffled output
indices: when `m*n ≥ 256` every sampled index is in bounds of Y2 and the
attempt returns 256 samples; when `m*n < 256` the slice is out of bounds
and the function panics (`none`) instead of returning an error. -/
theorem C10_run_attempt_sampling (e : Extern) (w : Nat) (prev : List Nat)
    (nonce : Nat) (sz : Sizes)
    (hshuffle : ∀ s l, (e.stdShuffle s l).Perm l) :
    (256 ≤ sz.m * sz.n →
      ∃ out, run_attempt e w prev nonce sz = some out ∧
        out.y2_samples.length = 256 ∧
        ∀ i ∈ (sampleIndices e (derive_seed e.blake3 prev nonce)
            (sz.m * sz.n)).take 256, i < sz.m * sz.n) ∧
    (sz.m * sz.n < 256 → run_attempt e w prev nonce sz = none) := by
  have hlen : ∀ seed, (sampleIndices e seed (sz.m * sz.n)).length = sz.m * sz.n :=
    fun seed => (hshuffle _ _).length_eq.trans (List.length_range _)
  obtain ⟨Y1, hY1⟩ : ∃ y, attempt_y1 e (derive_seed e.blake3 prev nonce) sz =
      some y :=
    ⟨_, gemm_den_ne_neg_one _ _ _ _ _ _ _ (by decide : (256 : Int) ≠ -1)⟩
  have hY2 : CpuExec.gemm_int8_relu_q Y1 (attempt_w2 e sz)
      sz.m sz.n sz.n 1 256 =
      some (mkMat sz.m sz.n (CpuExec.entryQ Y1 (attempt_w2 e sz)
        sz.n sz.n 1 256)) :=
    gemm_den_ne_neg_one _ _ _ _ _ _ _ (by decide : (256 : Int) ≠ -1)
  constructor
  · intro h256
    have hmem : ∀ i ∈ (sampleIndices e (derive_seed e.blake3 prev nonce)
        (sz.m * sz.n)).take 256, i < sz.m * sz.n := by
      intro i hi
      exact List.mem_range.mp
        ((hshuffle (e.blake3 (derive_seed e.blake3 prev nonce))
          (List.range (sz.m * sz.n))).mem_iff.mp (List.mem_of_mem_take hi))
    obtain ⟨vs, hvs, hvslen⟩ := takeSamples_all_lt
      (mkMat sz.m sz.n (CpuExec.entryQ Y1 (attempt_w2 e sz) sz.n sz.n 1 256))
      ((sampleIndices e (derive_seed e.blake3 prev nonce)
        (sz.m * sz.n)).take 256)
      (fun i hi => by rw [mkMat_length]; exact hmem i hi)
    refine ⟨⟨e.blake3 (work_msg vs w sz.m sz.n sz.k), Y1, vs, 0⟩, ?_, ?_, hmem⟩
    · simp only [run_attempt, hY1, hY2]
      rw [if_pos (by rw [hlen]; exact h256), hvs]
    · show vs.length = 256
      rw [hvslen, List.length_take, hlen]
      omega
  · intro hlt
    simp only [run_attempt, hY1, hY2]
    rw [if_neg (by rw [hlen]; omega)]

/-- Witness for C10 with the identity shuffle, the constant hash and
sizes m = n = 16, k = 1 (so m·n = 256). -/
theorem C10_witness :
    (∀ s l, (identExtern.stdShuffle s l).Perm l) ∧
    ((256 ≤ 16 * 16 →
      ∃ out, run_attempt identExtern 8 (List.replicate 32 170) 0
          ⟨16, 16, 1, 1⟩ = some out ∧
        out.y2_samples.length = 256 ∧
        ∀ i ∈ (sampleIndices identExtern
            (derive_seed identExtern.blake3 (List.replicate 32 170) 0)
            (16 * 16)).take 256, i < 16 * 16) ∧
    (16 * 16 < 256 →
      run_attempt identExtern 8 (List.replicate 32 170) 0 ⟨16, 16, 1, 1⟩ =
        none)) :=
  ⟨fun _ l => List.Perm.refl l,
    C10_run_attempt_sampling identExtern 8 (List.replicate 32 170) 0
      ⟨16, 16, 1, 1⟩ (fun _ l => List.Perm.refl l)⟩

/-- C7 counterexample: the negative sign-flip map sends both i8::MIN (−128)
and −127 to 127, so it is not injective on the representable i8 values and
hence not a bijection as the claim states. -/
theorem C7_counterexample :
    sign_flip_i8 (-128) (-1) = 127 ∧ sign_flip_i8 (-127) (-1) = 127 ∧
      (-128 : Int) ≠ -127 := by
  refine ⟨by decide, by decide, by decide⟩

/-- C7 amended: the negative sign-flip map sends every representable i8 value
into [−127, 127], and restricted to the representable values other than
i8::MIN it is a bijection of [−127, 127] onto itself. -/
theorem C7_sign_flip_bijOn :
    Set.MapsTo (fun v => sign_flip_i8 v (-1))
      (Set.Icc (-128 : Int) 127) (Set.Icc (-127 : Int) 127) ∧
    Set.BijOn (fun v => sign_flip_i8 v (-1))
      (Set.Icc (-127 : Int) 127) (Set.Icc (-127 : Int) 127) := by
  constructor
  · intro v hv
    simp only [Set.mem_Icc] at hv ⊢
    by_cases h : v = -128
    · rw [h]; decide
    · rw [sign_flip_i8_neg v h]; omega
  · refine ⟨?_, ?_, ?_⟩
    · intro v hv
      simp only [Set.mem_Icc] at hv ⊢
      rw [sign_flip_i8_neg v (by omega)]
      omega
    · intro v hv w hw hvw
      simp only [Set.mem_Icc] at hv hw
      change sign_flip_i8 v (-1) = sign_flip_i8 w (-1) at hvw
      rw [sign_flip_i8_neg v (by omega), sign_flip_i8_neg w (by omega)] at hvw
      omega
    · intro u hu
      simp only [Set.mem_Icc] at hu
      refine ⟨-u, by simp only [Set.mem_Icc]; omega, ?_⟩
      show sign_flip_i8 (-u) (-1) = u
      rw [sign_flip_i8_neg (-u) (by omega)]
      ring

theorem hexOfBytes_length : ∀ bs : List Nat, (hexOfBytes bs).length = 2 * bs.length
  | [] => rfl
  | b :: rest => by
      have ih := hexOfBytes_length rest
      simp [hexOfBytes, String.length] at ih ⊢
      omega

/-- C6: `sign_receipt` signs exactly the canonical digest: the receipt is
serialized with `sig_hex` blanked using the stable field-ordered JSON
encoding, hashed with blake3, that output hashed with SHA-256, the SHA-256
digest signed with the deterministic secp256k1 prehash signer, and the
64-byte compact signature hex-encoded (so the hex string has 128
characters). -/
theorem C6_sign_receipt_canonical (e : SigExtern) (s : Secp) (r : WorkReceipt)
    (h64 : ∀ sk d, (e.sign_prehash sk d).length = 64) :
    Secp.sign_receipt e s r =
      hexOfBytes (e.sign_prehash s.sk (e.sha256 (e.blake3
        (strBytes (jsonOfReceipt { r with sig_hex := "" }))))) ∧
    (Secp.sign_receipt e s r).length = 128 := by
  have h : Secp.sign_receipt e s r =
      hexOfBytes (e.sign_prehash s.sk (e.sha256 (e.blake3
        (strBytes (jsonOfReceipt { r with sig_hex := "" }))))) := by
    simp [Secp.sign_receipt, Hasher.new, Hasher.update, Hasher.finalize]
  refine ⟨h, ?_⟩
  rw [h, hexOfBytes_length, h64]

/-- Witness for C6 with the constant externals and `receipt0`. -/
theorem C6_witness :
    (∀ sk d : List Nat, (sigExtern0.sign_prehash sk d).length = 64) ∧
    (Secp.sign_receipt sigExtern0 ⟨List.replicate 32 1⟩ receipt0).length = 128 :=
  ⟨fun _ _ => rfl,
    (C6_sign_receipt_canonical sigExtern0 ⟨List.replicate 32 1⟩ receipt0
      (fun _ _ => rfl)).2⟩

/-- C9: two receipts that agree on every field except `sig_hex` get the same
signature — `sign_receipt` blanks `sig_hex` before serializing, so signing a
receipt whose `sig_hex` is already filled reproduces the signature of the
empty-`sig_hex` receipt (the borrowed input is untouched: the code signs a
clone). -/
theorem C9_sign_receipt_ignores_sig (e : SigExtern) (s : Secp)
    (r1 r2 : WorkReceipt)
    (h1 : r1.device_did = r2.device_did) (h2 : r1.epoch_id = r2.epoch_id)
    (h3 : r1.prev_hash_hex = r2.prev_hash_hex) (h4 : r1.nonce = r2.nonce)
    (h5 : r1.work_root_hex = r2.work_root_hex) (h6 : r1.sizes = r2.sizes)
    (h7 : r1.time_ms = r2.time_ms) (h8 : r1.kernel_ver = r2.kernel_ver)
    (h9 : r1.driver_hint = r2.driver_hint) :
    Secp.sign_receipt e s r1 = Secp.sign_receipt e s r2 := by
  have hcopy : ({ r1 with sig_hex := "" } : WorkReceipt) =
      { r2 with sig_hex := "" } := by
    cases r1
    cases r2
    simp_all
  simp only [Secp.sign_receipt, hcopy]

/-- Witness for C9: `receipt0` with an empty signature field versus the same
receipt with `sig_hex` already filled in. -/
theorem C9_witness :
    (receipt0.device_did =
        ({ receipt0 with sig_hex := "ff00" } : WorkReceipt).device_did ∧
      receipt0.sizes = ({ receipt0 with sig_hex := "ff00" } : WorkReceipt).sizes) ∧
    Secp.sign_receipt sigExtern0 ⟨List.replicate 32 1⟩ receipt0 =
      Secp.sign_receipt sigExtern0 ⟨List.replicate 32 1⟩
        { receipt0 with sig_hex := "ff00" } :=
  ⟨⟨rfl, rfl⟩,
    C9_sign_receipt_ignores_sig sigExtern0 ⟨List.replicate 32 1⟩ receipt0
      { receipt0 with sig_hex := "ff00" } rfl rfl rfl rfl rfl rfl rfl rfl rfl⟩

theorem specChoose_cons (score : Sizes → Nat) (s : Sizes) (rest : List Sizes) :
    specChoose score (s :: rest) =
      match specChoose score rest with
      | none => some s
      | some t => if score s ≤ score t then some s else some t := rfl

theorem specChoose_cons_ne_none (score : Sizes → Nat) (s : Sizes)
    (rest : List Sizes) : specChoose score (s :: rest) ≠ none := by
  rw [specChoose_cons]
  cases specChoose score rest with
  | none => simp
  | some t => by_cases h : score s ≤ score t <;> simp [h]

theorem specChoose_cons_cons (score : Sizes → Nat) (b0 s : Sizes)
    (rest : List Sizes) :
    specChoose score (b0 :: s :: rest) =
      if score s < score b0 then specChoose score (s :: rest)
      else specChoose score (b0 :: rest) := by
  cases hrest : specChoose score rest with
  | none =>
      have e1 : specChoose score (s :: rest) = some s := by
        rw [specChoose_cons, hrest]
      have e2 : specChoose score (b0 :: rest) = some b0 := by
        rw [specChoose_cons, hrest]
      have e3 : specChoose score (b0 :: s :: rest) =
          if score b0 ≤ score s then some b0 else some s := by
        rw [specChoose_cons, e1]
      rw [e3, e1, e2]
      split_ifs <;> first | rfl | (exfalso; omega)
  | some t =>
      have e1 : specChoose score (s :: rest) =
          if score s ≤ score t then some s else some t := by
        rw [specChoose_cons, hrest]
      have e2 : specChoose score (b0 :: rest) =
          if score b0 ≤ score t then some b0 else some t := by
        rw [specChoose_cons, hrest]
      have e3 : specChoose score (b0 :: s :: rest) =
          if score s ≤ score t then
            (if score b0 ≤ score s then some b0 else some s)
          else
            (if score b0 ≤ score t then some b0 else some t) := by
        rw [specChoose_cons, e1]
        by_cases hst : score s ≤ score t
        · rw [if_pos hst, if_pos hst]
        · rw [if_neg hst, if_neg hst]
      rw [e3, e1, e2]
      split_ifs <;> first | rfl | (exfalso; omega)

theorem autotune_go_spec (attemptMs : Nat → Sizes → Option Nat)
    (msFun : Sizes → Nat) (target : Nat)
    (hmock : ∀ nonce s, attemptMs nonce s = some (msFun s)) :
    ∀ (l : List Sizes) (nonce : Nat) (b0 : Sizes),
      autotune_go attemptMs target l nonce (some b0)
          (Nat.dist (msFun b0) target) =
        specChoose (fun s => Nat.dist (msFun s) target) (b0 :: l) := by
  intro l
  induction l with
  | nil => intro nonce b0; rfl
  | cons s rest ih =>
      intro nonce b0
      simp only [autotune_go, hmock]
      rw [specChoose_cons_cons]
      by_cases h : Nat.dist (msFun s) target < Nat.dist (msFun b0) target
      · rw [if_pos h, if_pos h, ih]
      · rw [if_neg h, if_neg h, ih]

theorem specChoose_some_char (score : Sizes → Nat) :
    ∀ (l : List Sizes) (c : Sizes), specChoose score l = some c →
      ∃ j, j < l.length ∧ c = l.getD j ⟨0, 0, 0, 0⟩ ∧
        (∀ i, i < l.length → score c ≤ score (l.getD i ⟨0, 0, 0, 0⟩)) ∧
        (∀ i, i < j → score c < score (l.getD i ⟨0, 0, 0, 0⟩)) := by
  intro l
  induction l with
  | nil => intro c h; exact absurd h (by simp [specChoose])
  | cons s rest ih =>
      intro c h
      cases hrest : specChoose score rest with
      | none =>
          have hself : c = s := by
            simp only [specChoose, hrest] at h
            exact (Option.some_inj.mp h).symm
          cases rest with
          | nil =>
              refine ⟨0, by simp, by simp [hself], ?_, by omega⟩
              intro i hi
              cases i with
              | zero => simp [hself]
              | succ i2 => simp at hi
          | cons s2 rest2 =>
              exact absurd hrest (specChoose_cons_ne_none score s2 rest2)
      | some t =>
          obtain ⟨j, hj, hc, hmin, hstrict⟩ := ih t hrest
          by_cases hle : score s ≤ score t
          · have hself : c = s := by
              simp only [specChoose, hrest, if_pos hle] at h
              exact (Option.some_inj.mp h).symm
            refine ⟨0, by simp, by simp [hself], ?_, by omega⟩
            intro i hi
            cases i with
            | zero => simp [hself]
            | succ i2 =>
                rw [hself, List.getD_cons_succ]
                exact le_trans hle (hmin i2 (by simpa using hi))
          · have hself : c = t := by
              simp only [specChoose, hrest, if_neg hle] at h
              exact (Option.some_inj.mp h).symm
            refine ⟨j + 1, by simpa using hj, ?_, ?_, ?_⟩
            · rw [List.getD_cons_succ, hself, hc]
            · intro i hi
              cases i with
              | zero =>
                  rw [hself, List.getD_cons_zero]
                  omega
              | succ i2 =>
                  rw [hself, List.getD_cons_succ]
                  exact hmin i2 (by simpa using hi)
            · intro i hi
              cases i with
              | zero =>
                  rw [hself, List.getD_cons_zero]
                  omega
              | succ i2 =>
                  rw [hself, List.getD_cons_succ]
                  exact hstrict i2 (by omega)

/-- C8 counterexample: one candidate whose attempt fails — `autotune_sizes`
propagates the failure and returns an error (`none`); it does not fall back
to (1024, 1024, 1024) as the claim states. -/
theorem C8_counterexample :
    autotune_sizes (fun _ _ => none) 300 [⟨512, 512, 512, 1⟩] = none ∧
    autotune_sizes (fun _ _ => none) 300 [⟨512, 512, 512, 1⟩] ≠
      some ⟨1024, 1024, 1024, 1⟩ := by
  constructor
  · rfl
  · intro h
    exact absurd h (by decide)

/-- C8 amended: when every attempt succeeds with a mocked elapsed time that
is a function of the sizes, `autotune_sizes` runs one attempt per candidate
with increasing nonces and returns the earliest candidate minimizing
`|elapsed_ms − target_ms|` (none for an empty list); when an attempt fails
it propagates the error instead of falling back. -/
theorem C8_autotune_selects (attemptMs : Nat → Sizes → Option Nat)
    (msFun : Sizes → Nat) (target : Nat) (cands : List Sizes)
    (hmock : ∀ nonce s, attemptMs nonce s = some (msFun s))
    (hb : ∀ s ∈ cands, Nat.dist (msFun s) target < 18446744073709551615) :
    autotune_sizes attemptMs target cands =
      specChoose (fun s => Nat.dist (msFun s) target) cands ∧
    (cands ≠ [] → ∃ c, autotune_sizes attemptMs target cands = some c) ∧
    (∀ c, autotune_sizes attemptMs target cands = some c →
      ∃ j, j < cands.length ∧ c = cands.getD j ⟨0, 0, 0, 0⟩ ∧
        (∀ i, i < cands.length →
          Nat.dist (msFun c) target ≤
            Nat.dist (msFun (cands.getD i ⟨0, 0, 0, 0⟩)) target) ∧
        (∀ i, i < j →
          Nat.dist (msFun c) target <
            Nat.dist (msFun (cands.getD i ⟨0, 0, 0, 0⟩)) target)) := by
  have hA : autotune_sizes attemptMs target cands =
      specChoose (fun s => Nat.dist (msFun s) target) cands := by
    cases cands with
    | nil => rfl
    | cons c0 rest =>
        have hc0 : Nat.dist (msFun c0) target < 18446744073709551615 :=
          hb c0 (List.mem_cons_self _ _)
        simp only [autotune_sizes, autotune_go, hmock]
        rw [if_pos hc0]
        exact autotune_go_spec attemptMs msFun target hmock rest _ c0
  refine ⟨hA, ?_, ?_⟩
  · intro hne
    cases cands with
    | nil => exact absurd rfl hne
    | cons c0 rest =>
        rw [hA]
        cases hsc : specChoose (fun s => Nat.dist (msFun s) target) (c0 :: rest) with
        | some c => exact ⟨c, rfl⟩
        | none =>
            exact absurd hsc (specChoose_cons_ne_none _ c0 rest)
  · intro c hc
    rw [hA] at hc
    exact specChoose_some_char (fun s => Nat.dist (msFun s) target) cands c hc

/-- Witness for C8: a mocked executor whose elapsed time is the `m`
dimension, target 5 ms, candidates with m = 3, 6, 7: the theorem applies and
the autotuner equals the spec-level chooser on this input. -/
theorem C8_witness :
    (∀ (nonce : Nat) (s : Sizes),
      (fun (_ : Nat) (s : Sizes) => some s.m) nonce s = some s.m) ∧
    (∀ s ∈ ([⟨3, 1, 1, 1⟩, ⟨6, 1, 1, 1⟩, ⟨7, 1, 1, 1⟩] : List Sizes),
      Nat.dist s.m 5 < 18446744073709551615) ∧
    autotune_sizes (fun _ s => some s.m) 5
        [⟨3, 1, 1, 1⟩, ⟨6, 1, 1, 1⟩, ⟨7, 1, 1, 1⟩] =
      specChoose (fun s => Nat.dist s.m 5)
        [⟨3, 1, 1, 1⟩, ⟨6, 1, 1, 1⟩, ⟨7, 1, 1, 1⟩] :=
  ⟨fun _ _ => rfl, by decide,
    (C8_autotune_selects (fun _ s => some s.m) (fun s => s.m) 5
      [⟨3, 1, 1, 1⟩, ⟨6, 1, 1, 1⟩, ⟨7, 1, 1, 1⟩]
      (fun _ _ => rfl) (by decide)).1⟩

end TopsWorker
